import Mathlib

/-!
Shallow embedding of `src/main.js` (hussainkazarani/hashira): an exact
base-2..36 big-integer decoder and an exact-fraction Gauss-Jordan linear
solver.  JavaScript `BigInt` is modelled by `Int` (both are unbounded signed
integers; JS `/` and `%` on BigInt truncate toward zero, i.e. `Int.tdiv` /
`Int.tmod`).  Strings are modelled as `List Char`.  A thrown JS exception is
modelled by `Except JsError`; the distinct `JsError` constructors correspond
to the distinct `throw new Error(...)` sites of the source, plus `typeError`
for the TypeError JS raises when reading `matrix[0].length` of an empty
array, and `divisionByZero` for the RangeError JS BigInt division raises on
division by `0n`.
-/

deriving instance DecidableEq for Except

namespace Hashira

/-- Error values corresponding to the exceptions the source can throw. -/
inductive JsError where
  | typeError : JsError
  | invalidBase : Int → JsError
  | invalidDigit : Char → JsError
  | digitOutOfRange : Char → Int → JsError
  | divisionByZero : JsError
deriving DecidableEq, Repr

/-- Fractions as in the source: `{ num: BigInt, den: BigInt }`. -/
structure Fraction where
  num : Int
  den : Int
deriving DecidableEq, Repr

/-- Source line 5-10: `charToDigit(ch)`; `'0'..'9'` map to 0-9 and
(after `toLowerCase`) `'a'..'z'` map to 10-35, anything else throws. -/
def charToDigit (ch : Char) : Except JsError Int :=
  if '0' ≤ ch ∧ ch ≤ '9' then .ok ((ch.toNat : Int) - 48)
  else
    let lower := ch.toLower
    if 'a' ≤ lower ∧ lower ≤ 'z' then .ok ((lower.toNat : Int) - 87)
    else .error (.invalidDigit ch)

/-- The whitespace characters removed by JS `String.prototype.trim`
(ASCII portion, which is all the development needs). -/
def jsIsSpace (c : Char) : Bool :=
  c == ' ' || c == '\t' || c == '\n' || c == '\r' || c == '\x0b' || c == '\x0c'

/-- JS `str.trim()`: drop leading and trailing whitespace. -/
def trim (s : List Char) : List Char :=
  ((s.dropWhile jsIsSpace).reverse.dropWhile jsIsSpace).reverse

/-- Source lines 27-33: the digit-accumulation loop of `parseBigIntFromBase`:
`result = result * bigBase + BigInt(digit)` with the `digit >= b` range
check, processing characters left to right. -/
def runDigits (b : Int) : List Char → Int → Except JsError Int
  | [], result => .ok result
  | ch :: rest, result =>
    match charToDigit ch with
    | .error e => .error e
    | .ok digit =>
      if digit ≥ b then .error (.digitOutOfRange ch b)
      else runDigits b rest (result * b + digit)

/-- Source lines 13-36: `parseBigIntFromBase(str, base)`: base range check,
trim, optional leading minus (stripped, sign reapplied at the end), then the
left-to-right digit accumulation loop. -/
def parseBigIntFromBase (str : List Char) (base : Int) : Except JsError Int :=
  if base < 2 ∨ 36 < base then .error (.invalidBase base)
  else
    let s0 := trim str
    let negative : Bool := s0.head? == some '-'
    let s := if negative then s0.tail else s0
    match runDigits base s 0 with
    | .error e => .error e
    | .ok result => .ok (if negative then -result else result)

/-- Source line 45: `makeFraction(num, den = 1n)` at its default
denominator (the only way the source calls it). -/
def makeFraction (num : Int) : Fraction := ⟨num, 1⟩

/-- Fuel-indexed implementation of the source's Euclid recursion; the second
argument strictly decreases, so fuel `b + 1` always suffices (see
`jsGcd_unfold`, which recovers the source's recursion equation exactly). -/
def jsGcdAux : Nat → Nat → Nat → Nat
  | 0, a, _ => a
  | fuel + 1, a, b => if b = 0 then a else jsGcdAux fuel b (a % b)

/-- Source line 48: the recursive Euclid closure
`gcd = (a, b) => (b === 0n ? a : gcd(b, a % b))`, at the non-negative
arguments it is always called with. -/
def jsGcd (a b : Nat) : Nat := jsGcdAux (b + 1) a b

/-- Source lines 52-56: `simplify(f)`: divide numerator and denominator by
`gcd(|num|, |den|)`, negated when the denominator is negative.  When that
gcd is `0n` (i.e. `num = den = 0`), the JS BigInt divisions `f.num / g`
raise a division-by-zero RangeError, modelled as `.error .divisionByZero`. -/
def simplify (f : Fraction) : Except JsError Fraction :=
  let g0 : Int := (jsGcd f.num.natAbs f.den.natAbs : Nat)
  let g : Int := if f.den < 0 then -g0 else g0
  if g = 0 then .error .divisionByZero
  else .ok ⟨f.num.tdiv g, f.den.tdiv g⟩

/-- Source line 59: `add(a, b)`. -/
def add (a b : Fraction) : Except JsError Fraction :=
  simplify ⟨a.num * b.den + b.num * a.den, a.den * b.den⟩

/-- Source line 60: `subtract(a, b)`. -/
def subtract (a b : Fraction) : Except JsError Fraction :=
  simplify ⟨a.num * b.den - b.num * a.den, a.den * b.den⟩

/-- Source line 61: `multiply(a, b)`. -/
def multiply (a b : Fraction) : Except JsError Fraction :=
  simplify ⟨a.num * b.num, a.den * b.den⟩

/-- Source line 62: `divide(a, b)`. -/
def divide (a b : Fraction) : Except JsError Fraction :=
  simplify ⟨a.num * b.den, a.den * b.num⟩

/-- The internal fraction grid of the solver, as a total function on row and
column indices (the source only reads indices inside the `n × m` bounds). -/
def Mat : Type := Nat → Nat → Fraction

/-- Write one entry of the grid (`mat[r][c] = v`). -/
def updateEntry (mat : Mat) (r c : Nat) (v : Fraction) : Mat :=
  fun r' c' => if r' = r ∧ c' = c then v else mat r' c'

/-- Source line 79: `[mat[col], mat[pivotRow]] = [mat[pivotRow], mat[col]]`. -/
def swapRows (mat : Mat) (r1 r2 : Nat) : Mat :=
  fun r c => if r = r1 then mat r2 c else if r = r2 then mat r1 c else mat r c

/-- Source lines 69-75: the pivot search; scan rows `r, r+1, ..., r+k-1` and
return the first whose entry in column `col` has nonzero numerator,
defaulting to `col` (the initial value of `pivotRow`) when none is found. -/
def findPivot (mat : Mat) (col : Nat) : Nat → Nat → Nat
  | _, 0 => col
  | r, k + 1 => if (mat r col).num ≠ 0 then r else findPivot mat col (r + 1) k

/-- Source lines 83-86: the normalization loop
`for (c = col; c < m; c++) mat[col][c] = divide(mat[col][c], pivotValue)`,
with `pivotValue` captured before the loop; `k` counts remaining
iterations starting at column `c`. -/
def normLoop (pivotValue : Fraction) (colRow : Nat) :
    Mat → Nat → Nat → Except JsError Mat
  | mat, _, 0 => .ok mat
  | mat, c, k + 1 =>
    match divide (mat colRow c) pivotValue with
    | .error e => .error e
    | .ok v => normLoop pivotValue colRow (updateEntry mat colRow c v) (c + 1) k

/-- Source line 92-94: the inner elimination loop over columns
`c = col .. m-1` of one row `r`:
`mat[r][c] = subtract(mat[r][c], multiply(factor, mat[col][c]))`,
with `factor` captured before the loop. -/
def elimEntries (pcol : Nat) (factor : Fraction) :
    Mat → Nat → Nat → Nat → Except JsError Mat
  | mat, _, _, 0 => .ok mat
  | mat, r, c, k + 1 =>
    match multiply factor (mat pcol c) with
    | .error e => .error e
    | .ok p =>
      match subtract (mat r c) p with
      | .error e => .error e
      | .ok v => elimEntries pcol factor (updateEntry mat r c v) r (c + 1) k

/-- Source lines 89-95: the outer elimination loop over rows `r = 0 .. n-1`,
skipping the pivot row `col`; `k` counts remaining rows starting at `r`. -/
def elimRows (m col : Nat) : Mat → Nat → Nat → Except JsError Mat
  | mat, _, 0 => .ok mat
  | mat, r, k + 1 =>
    if r = col then elimRows m col mat (r + 1) k
    else
      match elimEntries col (mat r col) mat r col (m - col) with
      | .error e => .error e
      | .ok mat1 => elimRows m col mat1 (r + 1) k

/-- Source lines 67-96: one iteration of the `for (col = 0; col < n; col++)`
loop: pivot search, conditional row swap, pivot-row normalization, and
elimination of column `col` from every other row. -/
def gaussStep (n m : Nat) (mat : Mat) (col : Nat) : Except JsError Mat :=
  let pivotRow := findPivot mat col col (n - col)
  let mat1 := if pivotRow ≠ col then swapRows mat col pivotRow else mat
  let pivotValue := mat1 col col
  match normLoop pivotValue col mat1 col (m - col) with
  | .error e => .error e
  | .ok mat2 => elimRows m col mat2 0 n

/-- The whole column loop: `k` remaining columns starting at `col`. -/
def elimAll (n m : Nat) : Mat → Nat → Nat → Except JsError Mat
  | mat, _, 0 => .ok mat
  | mat, col, k + 1 =>
    match gaussStep n m mat col with
    | .error e => .error e
    | .ok mat1 => elimAll n m mat1 (col + 1) k

/-- Source line 99: `mat.map((row) => simplify(row[m - 1]))`, extracting and
simplifying the last column, row by row (`k` remaining rows from `r`). -/
def extractSol (mat : Mat) (m : Nat) : Nat → Nat → Except JsError (List Fraction)
  | _, 0 => .ok []
  | r, k + 1 =>
    match simplify (mat r (m - 1)) with
    | .error e => .error e
    | .ok f =>
      match extractSol mat m (r + 1) k with
      | .error e => .error e
      | .ok rest => .ok (f :: rest)

/-- Source lines 40-100: `solveLinearEquations(matrix)`.  `n` and `m` are the
row count and the width of row 0 (reading `matrix[0].length` of an empty
array throws a TypeError in JS); the BigInt entries are wrapped into
fractions with denominator 1, Gauss-Jordan elimination runs over every
column, and the simplified last column is returned. -/
def solveLinearEquations (matrix : List (List Int)) : Except JsError (List Fraction) :=
  match matrix with
  | [] => .error .typeError
  | row0 :: _ =>
    let n := matrix.length
    let m := row0.length
    let mat : Mat := fun r c => makeFraction ((matrix.getD r []).getD c 0)
    match elimAll n m mat 0 n with
    | .error e => .error e
    | .ok mat1 => extractSol mat1 m 0 n

/-- Entry `(r, c)` of the caller-supplied integer matrix. -/
def entry (matrix : List (List Int)) (r c : Nat) : Int :=
  (matrix.getD r []).getD c 0

/-- The rational value of a fraction record. -/
def val (f : Fraction) : ℚ := (f.num : ℚ) / (f.den : ℚ)

/-- The canonical-form invariant of §3 of the spec: positive denominator and
coprime numerator and denominator. -/
def Canonical (f : Fraction) : Prop := 0 < f.den ∧ Int.gcd f.num f.den = 1

/-! ### Basic facts about the fraction helpers -/

theorem jsGcdAux_eq_gcd : ∀ (fuel a b : Nat), b < fuel → jsGcdAux fuel a b = Nat.gcd b a := by
  intro fuel
  induction fuel with
  | zero => intro a b h; omega
  | succ fuel ih =>
    intro a b h
    by_cases hb : b = 0
    · subst hb; simp [jsGcdAux]
    · rw [jsGcdAux, if_neg hb, ih b (a % b) (lt_of_lt_of_le (Nat.mod_lt _ (Nat.pos_of_ne_zero hb)) (Nat.lt_succ_iff.mp h)), Nat.gcd_rec b a]

theorem jsGcd_eq_gcd (a b : Nat) : jsGcd a b = Nat.gcd b a :=
  jsGcdAux_eq_gcd (b + 1) a b (Nat.lt_succ_self b)

/-- The fueled implementation satisfies the source's recursion equation. -/
theorem jsGcd_unfold (a b : Nat) : jsGcd a b = if b = 0 then a else jsGcd b (a % b) := by
  by_cases hb : b = 0
  · subst hb; simp [jsGcd, jsGcdAux]
  · rw [if_neg hb, jsGcd_eq_gcd, jsGcd_eq_gcd, Nat.gcd_rec b a]

theorem val_mk (a b : Int) : val ⟨a, b⟩ = (a : ℚ) / (b : ℚ) := rfl

/-- In `simplify`, the Euclid closure computes exactly `Int.gcd num den`. -/
theorem jsGcd_natAbs (f : Fraction) :
    (jsGcd f.num.natAbs f.den.natAbs : Nat) = Int.gcd f.num f.den := by
  rw [jsGcd_eq_gcd, Int.gcd_def]
  exact Nat.gcd_comm _ _

/-- Unfolding of `simplify` when the denominator is positive. -/
theorem simplify_of_den_pos (f : Fraction) (hpos : 0 < f.den) :
    simplify f = .ok ⟨f.num / (Int.gcd f.num f.den : Int), f.den / (Int.gcd f.num f.den : Int)⟩ := by
  have hG0 : Int.gcd f.num f.den ≠ 0 := by
    intro h
    exact absurd (Int.gcd_eq_zero_iff.mp h).2 (by omega)
  have hGz : ((Int.gcd f.num f.den : Nat) : Int) ≠ 0 := Int.natCast_ne_zero.mpr hG0
  have hnn : ¬ f.den < 0 := by omega
  rw [simplify]
  simp only [jsGcd_natAbs, if_neg hnn, if_neg hGz]
  rw [Int.tdiv_eq_ediv_of_dvd Int.gcd_dvd_left, Int.tdiv_eq_ediv_of_dvd Int.gcd_dvd_right]

/-- Unfolding of `simplify` when the denominator is negative: the sign of the
gcd is flipped, so both quotients come out negated. -/
theorem simplify_of_den_neg (f : Fraction) (hneg : f.den < 0) :
    simplify f = .ok ⟨-(f.num / (Int.gcd f.num f.den : Int)), -(f.den / (Int.gcd f.num f.den : Int))⟩ := by
  have hG0 : Int.gcd f.num f.den ≠ 0 := by
    intro h
    exact absurd (Int.gcd_eq_zero_iff.mp h).2 (by omega)
  have hGz : ((Int.gcd f.num f.den : Nat) : Int) ≠ 0 := Int.natCast_ne_zero.mpr hG0
  rw [simplify]
  simp only [jsGcd_natAbs, if_pos hneg, neg_eq_zero, if_neg hGz]
  rw [Int.tdiv_neg, Int.tdiv_neg,
    Int.tdiv_eq_ediv_of_dvd Int.gcd_dvd_left, Int.tdiv_eq_ediv_of_dvd Int.gcd_dvd_right]

/-- `simplify` on a fraction with nonzero denominator: succeeds and returns
the canonical representative of the same rational value. -/
theorem simplify_spec (f : Fraction) (hden : f.den ≠ 0) :
    ∃ g, simplify f = .ok g ∧ 0 < g.den ∧ Int.gcd g.num g.den = 1 ∧ val g = val f := by
  have hG0 : Int.gcd f.num f.den ≠ 0 := by
    intro h
    exact hden (Int.gcd_eq_zero_iff.mp h).2
  have hgcd1 : Int.gcd (f.num / (Int.gcd f.num f.den : Int)) (f.den / (Int.gcd f.num f.den : Int)) = 1 :=
    Int.gcd_div_gcd_div_gcd (by omega)
  obtain ⟨G, hG⟩ : ∃ G : Nat, Int.gcd f.num f.den = G := ⟨_, rfl⟩
  rw [hG] at hG0 hgcd1
  have hGz : ((G : Nat) : Int) ≠ 0 := Int.natCast_ne_zero.mpr hG0
  have hGpos : (0 : Int) < ((G : Nat) : Int) := by
    have h := Int.natCast_nonneg G
    omega
  obtain ⟨p, hp⟩ : ((G : Nat) : Int) ∣ f.num := hG ▸ Int.gcd_dvd_left
  obtain ⟨q, hq⟩ : ((G : Nat) : Int) ∣ f.den := hG ▸ Int.gcd_dvd_right
  have hq0 : q ≠ 0 := by
    rintro rfl
    rw [mul_zero] at hq
    exact hden hq
  have hnum_div : f.num / ((G : Nat) : Int) = p := by
    rw [hp]; exact Int.mul_ediv_cancel_left _ hGz
  have hden_div : f.den / ((G : Nat) : Int) = q := by
    rw [hq]; exact Int.mul_ediv_cancel_left _ hGz
  rw [hnum_div, hden_div] at hgcd1
  have hvalpq : val ⟨p, q⟩ = val f := by
    rw [val_mk, val_mk, hp, hq]
    push_cast
    rw [mul_div_mul_left _ _ (by exact_mod_cast hGz)]
  by_cases hneg : f.den < 0
  · have hqneg : q < 0 := by
      rcases lt_trichotomy q 0 with h | h | h
      · exact h
      · exact absurd h hq0
      · have : 0 < f.den := by rw [hq]; exact mul_pos hGpos h
        omega
    refine ⟨⟨-p, -q⟩, ?_, by show 0 < -q; omega, ?_, ?_⟩
    · rw [simplify_of_den_neg f hneg, hG, hnum_div, hden_div]
    · show Int.gcd (-p) (-q) = 1
      rw [Int.neg_gcd, Int.gcd_neg]; exact hgcd1
    · rw [val_mk]
      push_cast
      rw [neg_div_neg_eq]
      exact hvalpq
  · have hqpos : 0 < q := by
      have hdpos : 0 < f.den := by omega
      rcases lt_trichotomy q 0 with h | h | h
      · have : f.den < 0 := by rw [hq]; exact mul_neg_of_pos_of_neg hGpos h
        omega
      · exact absurd h hq0
      · exact h
    refine ⟨⟨p, q⟩, ?_, hqpos, hgcd1, hvalpq⟩
    rw [simplify_of_den_pos f (by omega), hG, hnum_div, hden_div]

/-- `add` of two fractions with nonzero denominators: succeeds, is canonical,
and computes the rational sum. -/
theorem add_spec (a b : Fraction) (ha : a.den ≠ 0) (hb : b.den ≠ 0) :
    ∃ c, add a b = .ok c ∧ 0 < c.den ∧ Int.gcd c.num c.den = 1 ∧ val c = val a + val b := by
  obtain ⟨c, hc, h1, h2, h3⟩ := simplify_spec ⟨a.num * b.den + b.num * a.den, a.den * b.den⟩ (mul_ne_zero ha hb)
  refine ⟨c, hc, h1, h2, ?_⟩
  rw [h3, val_mk, val, val]
  have ha' : (a.den : ℚ) ≠ 0 := Int.cast_ne_zero.mpr ha
  have hb' : (b.den : ℚ) ≠ 0 := Int.cast_ne_zero.mpr hb
  rw [div_add_div _ _ ha' hb']
  push_cast
  ring_nf

/-- `subtract` of two fractions with nonzero denominators. -/
theorem subtract_spec (a b : Fraction) (ha : a.den ≠ 0) (hb : b.den ≠ 0) :
    ∃ c, subtract a b = .ok c ∧ 0 < c.den ∧ Int.gcd c.num c.den = 1 ∧ val c = val a - val b := by
  obtain ⟨c, hc, h1, h2, h3⟩ := simplify_spec ⟨a.num * b.den - b.num * a.den, a.den * b.den⟩ (mul_ne_zero ha hb)
  refine ⟨c, hc, h1, h2, ?_⟩
  rw [h3, val_mk, val, val]
  have ha' : (a.den : ℚ) ≠ 0 := Int.cast_ne_zero.mpr ha
  have hb' : (b.den : ℚ) ≠ 0 := Int.cast_ne_zero.mpr hb
  rw [div_sub_div _ _ ha' hb']
  push_cast
  ring_nf

/-- `multiply` of two fractions with nonzero denominators. -/
theorem multiply_spec (a b : Fraction) (ha : a.den ≠ 0) (hb : b.den ≠ 0) :
    ∃ c, multiply a b = .ok c ∧ 0 < c.den ∧ Int.gcd c.num c.den = 1 ∧ val c = val a * val b := by
  obtain ⟨c, hc, h1, h2, h3⟩ := simplify_spec ⟨a.num * b.num, a.den * b.den⟩ (mul_ne_zero ha hb)
  refine ⟨c, hc, h1, h2, ?_⟩
  rw [h3, val_mk, val, val]
  push_cast
  rw [div_mul_div_comm]

/-- `divide` by a fraction with nonzero numerator (and nonzero denominators
on both sides): succeeds, is canonical, and computes the rational quotient. -/
theorem divide_spec (a b : Fraction) (ha : a.den ≠ 0) (hb : b.den ≠ 0) (hbn : b.num ≠ 0) :
    ∃ c, divide a b = .ok c ∧ 0 < c.den ∧ Int.gcd c.num c.den = 1 ∧ val c = val a / val b := by
  obtain ⟨c, hc, h1, h2, h3⟩ := simplify_spec ⟨a.num * b.den, a.den * b.num⟩ (mul_ne_zero ha hbn)
  refine ⟨c, hc, h1, h2, ?_⟩
  rw [h3, val_mk, val, val]
  have ha' : (a.den : ℚ) ≠ 0 := Int.cast_ne_zero.mpr ha
  have hb' : (b.den : ℚ) ≠ 0 := Int.cast_ne_zero.mpr hb
  have hbn' : (b.num : ℚ) ≠ 0 := Int.cast_ne_zero.mpr hbn
  field_simp

/-! ### Decoder: reference encoder and decoding lemmas -/

/-- The digit alphabet `0-9a-z` used by a standard base-`b` formatter. -/
def digitChar (d : Nat) : Char :=
  if d < 10 then Char.ofNat (48 + d) else Char.ofNat (87 + d)

/-- Fuel-indexed digit emission for the reference encoder (most significant
digit first); fuel `v` suffices since `v / b < v`. -/
def encodeAux (b : Nat) : Nat → Nat → List Char
  | _, 0 => []
  | v, fuel + 1 => if v = 0 then [] else encodeAux b (v / b) fuel ++ [digitChar (v % b)]

/-- A correct base-`b` formatter for non-negative integers, used as the test
fixture `encode` of the round-trip property. -/
def encode (v b : Nat) : List Char := if v = 0 then ['0'] else encodeAux b v v

/-- Decidable check that a character is a digit valid for base `b`. -/
def isDigitFor (c : Char) (b : Int) : Bool :=
  match charToDigit c with
  | .ok d => decide (d < b)
  | .error _ => false

theorem isDigitFor_iff (c : Char) (b : Int) :
    isDigitFor c b = true ↔ ∃ d, charToDigit c = .ok d ∧ d < b := by
  rw [isDigitFor]
  cases h : charToDigit c with
  | error e => simp
  | ok d =>
    simp only [decide_eq_true_eq]
    constructor
    · exact fun hd => ⟨d, rfl, hd⟩
    · rintro ⟨d', hd', hlt⟩
      cases hd'
      exact hlt

theorem charToDigit_digitChar : ∀ d : Nat, d < 36 → charToDigit (digitChar d) = .ok (d : Int) := by
  decide

theorem digitChar_not_space : ∀ d : Nat, d < 36 → jsIsSpace (digitChar d) = false := by
  decide

theorem digitChar_ne_minus : ∀ d : Nat, d < 36 → digitChar d ≠ '-' := by
  decide

theorem charToDigit_of_space (c : Char) (h : jsIsSpace c = true) :
    charToDigit c = .error (.invalidDigit c) := by
  have hc := h
  simp only [jsIsSpace, Bool.or_eq_true, beq_iff_eq] at hc
  rcases hc with ((((rfl | rfl) | rfl) | rfl) | rfl) | rfl <;> decide

theorem charToDigit_minus : charToDigit '-' = .error (.invalidDigit '-') := by decide

theorem valid_not_space (c : Char) (d : Int) (h : charToDigit c = .ok d) :
    jsIsSpace c = false := by
  cases hs : jsIsSpace c
  · rfl
  · rw [charToDigit_of_space c hs] at h
    exact absurd h (by simp)

theorem valid_ne_minus (c : Char) (d : Int) (h : charToDigit c = .ok d) : c ≠ '-' := by
  rintro rfl
  rw [charToDigit_minus] at h
  exact absurd h (by simp)

theorem dropWhile_eq_self (p : Char → Bool) (l : List Char) (h : ∀ c ∈ l, p c = false) :
    l.dropWhile p = l := by
  cases l with
  | nil => rfl
  | cons a t => simp [List.dropWhile_cons, h a (List.mem_cons_self a t)]

theorem trim_eq_self (l : List Char) (h : ∀ c ∈ l, jsIsSpace c = false) : trim l = l := by
  rw [trim, dropWhile_eq_self _ _ h,
    dropWhile_eq_self _ _ (fun c hc => h c (List.mem_reverse.mp hc)), List.reverse_reverse]

/-- Behaviour of the digit loop on a list whose characters are all valid
digits below the base: it succeeds. -/
theorem runDigits_ok (b : Int) (l : List Char) (h : ∀ c ∈ l, ∃ d, charToDigit c = .ok d ∧ d < b) :
    ∀ acc, ∃ r, runDigits b l acc = .ok r := by
  induction l with
  | nil => exact fun acc => ⟨acc, rfl⟩
  | cons c t ih =>
    intro acc
    obtain ⟨d, hd, hlt⟩ := h c (List.mem_cons_self c t)
    obtain ⟨r, hr⟩ := ih (fun c hc => h c (List.mem_cons_of_mem _ hc)) (acc * b + d)
    exact ⟨r, by simp [runDigits, hd, not_le.mpr hlt]; exact hr⟩

/-- On a whitespace-free string not starting with `-`, the decoder is just
the digit loop from accumulator 0. -/
theorem parse_of_digits (b : Int) (h2 : 2 ≤ b) (h36 : b ≤ 36) (s : List Char)
    (hns : ∀ c ∈ s, jsIsSpace c = false) (hnm : s.head? ≠ some '-') :
    parseBigIntFromBase s b = runDigits b s 0 := by
  rw [parseBigIntFromBase, if_neg (by omega)]
  simp only [trim_eq_self s hns, beq_eq_false_iff_ne.mpr hnm, Bool.false_eq_true, if_false]
  cases hrun : runDigits b s 0 <;> simp [hrun]

/-- On a whitespace-free string, prefixing `-` flips the sign of the digit
loop result. -/
theorem parse_minus (b : Int) (h2 : 2 ≤ b) (h36 : b ≤ 36) (s : List Char)
    (hns : ∀ c ∈ s, jsIsSpace c = false) :
    parseBigIntFromBase ('-' :: s) b =
      match runDigits b s 0 with
      | .error e => .error e
      | .ok r => .ok (-r) := by
  have hall : ∀ c ∈ '-' :: s, jsIsSpace c = false := by
    intro c hc
    rcases List.mem_cons.mp hc with rfl | hc
    · decide
    · exact hns c hc
  rw [parseBigIntFromBase, if_neg (by omega)]
  simp only [trim_eq_self _ hall, List.head?_cons, beq_self_eq_true, if_true, List.tail_cons]

theorem runDigits_append_ok (b : Int) (l2 : List Char) :
    ∀ (l1 : List Char) (acc a : Int), runDigits b l1 acc = .ok a →
      runDigits b (l1 ++ l2) acc = runDigits b l2 a := by
  intro l1
  induction l1 with
  | nil =>
    intro acc a h
    obtain rfl : acc = a := by simpa [runDigits] using h
    rfl
  | cons c t ih =>
    intro acc a h
    rw [List.cons_append]
    cases hc : charToDigit c with
    | error e => simp [runDigits, hc] at h
    | ok d =>
      by_cases hd : d ≥ b
      · simp [runDigits, hc, hd] at h
      · simp only [runDigits, hc] at h ⊢
        rw [if_neg hd] at h ⊢
        exact ih _ _ h

theorem encodeAux_chars (b : Nat) (hb : 2 ≤ b) :
    ∀ fuel v, ∀ c ∈ encodeAux b v fuel, ∃ d : Nat, d < b ∧ c = digitChar d := by
  intro fuel
  induction fuel with
  | zero => intro v c hc; exact absurd hc (by simp [encodeAux])
  | succ fuel ih =>
    intro v c hc
    rw [encodeAux] at hc
    by_cases hv : v = 0
    · rw [if_pos hv] at hc; exact absurd hc (by simp)
    · rw [if_neg hv] at hc
      rcases List.mem_append.mp hc with hc | hc
      · exact ih (v / b) c hc
      · refine ⟨v % b, Nat.mod_lt v (by omega), ?_⟩
        simpa using hc

/-- Accumulation identity: running the digit loop over the emitted digits of
`v` extends the accumulator by `v` in base `b`. -/
theorem runDigits_encodeAux (b : Nat) (h2 : 2 ≤ b) (h36 : b ≤ 36) :
    ∀ fuel v acc, v ≤ fuel →
      runDigits (b : Int) (encodeAux b v fuel) acc =
        .ok (acc * (b : Int) ^ (encodeAux b v fuel).length + (v : Int)) := by
  intro fuel
  induction fuel with
  | zero =>
    intro v acc hv
    have hv0 : v = 0 := by omega
    subst hv0
    simp [encodeAux, runDigits]
  | succ fuel ih =>
    intro v acc hv
    by_cases hv0 : v = 0
    · subst hv0
      simp [encodeAux, runDigits]
    · have hbpos : 0 < b := by omega
      have hdiv : v / b ≤ fuel := by
        have := Nat.div_lt_self (Nat.pos_of_ne_zero hv0) (by omega : 1 < b)
        omega
      rw [encodeAux, if_neg hv0,
        runDigits_append_ok (b : Int) [digitChar (v % b)] _ acc _ (ih (v / b) acc hdiv)]
      have hmod : charToDigit (digitChar (v % b)) = .ok ((v % b : Nat) : Int) :=
        charToDigit_digitChar _ (lt_of_lt_of_le (Nat.mod_lt v hbpos) h36)
      have hlt : ¬ ((v % b : Nat) : Int) ≥ (b : Int) := by
        have := Nat.mod_lt v hbpos
        omega
      simp only [runDigits, hmod]
      rw [if_neg hlt]
      have hvb : ((b : Int)) * ((v / b : Nat) : Int) + ((v % b : Nat) : Int) = (v : Int) := by
        exact_mod_cast Nat.div_add_mod v b
      have hlen : (encodeAux b (v / b) fuel ++ [digitChar (v % b)]).length
          = (encodeAux b (v / b) fuel).length + 1 := by
        simp
      rw [hlen]
      have hval : (acc * (b : Int) ^ (encodeAux b (v / b) fuel).length + ((v / b : Nat) : Int)) * (b : Int)
          + ((v % b : Nat) : Int)
          = acc * (b : Int) ^ ((encodeAux b (v / b) fuel).length + 1) + (v : Int) := by
        rw [pow_succ]
        nlinarith [hvb]
      rw [hval]

/-! ### Claims C5, C6, C7, C9: decoder properties -/

/-- C5: for every base `b ∈ [2, 36]` and every non-negative integer `v`,
decoding the base-`b` digit-string representation of `v` (produced by the
correct formatter `encode`) yields exactly `v`:
`decode(encode(v, b), b) == v`. -/
theorem c5_decode_encode_roundtrip (b v : Nat) (h2 : 2 ≤ b) (h36 : b ≤ 36) :
    parseBigIntFromBase (encode v b) (b : Int) = .ok (v : Int) := by
  have h2i : (2 : Int) ≤ (b : Int) := by exact_mod_cast h2
  have h36i : (b : Int) ≤ 36 := by exact_mod_cast h36
  have hchars : ∀ c ∈ encode v b, ∃ d : Nat, d < b ∧ c = digitChar d := by
    intro c hc
    rw [encode] at hc
    by_cases hv : v = 0
    · rw [if_pos hv] at hc
      have hc0 : c = '0' := by simpa using hc
      exact ⟨0, by omega, by rw [hc0]; decide⟩
    · rw [if_neg hv] at hc
      exact encodeAux_chars b h2 v v c hc
  have hns : ∀ c ∈ encode v b, jsIsSpace c = false := by
    intro c hc
    obtain ⟨d, hd, rfl⟩ := hchars c hc
    exact digitChar_not_space d (by omega)
  have hnm : (encode v b).head? ≠ some '-' := by
    cases henc : encode v b with
    | nil => simp
    | cons c t =>
      have hmem : c ∈ encode v b := by rw [henc]; exact List.mem_cons_self c t
      obtain ⟨d, hd, rfl⟩ := hchars c hmem
      simp only [List.head?_cons, ne_eq, Option.some.injEq]
      exact digitChar_ne_minus d (by omega)
  rw [parse_of_digits (b : Int) h2i h36i _ hns hnm, encode]
  by_cases hv : v = 0
  · subst hv
    have h0 : charToDigit '0' = .ok 0 := by decide
    simp only [if_pos rfl, runDigits, h0, Nat.cast_zero]
    rw [if_neg (by omega)]
    norm_num
  · rw [if_neg hv, runDigits_encodeAux b h2 h36 v v 0 le_rfl]
    simp

theorem c5_witness :
    parseBigIntFromBase (encode 255 16) ((16 : Nat) : Int) = .ok ((255 : Nat) : Int) :=
  c5_decode_encode_roundtrip 16 255 (by norm_num) (by norm_num)

/-- C6: for every valid digit string `s` (every character a digit valid for
base `b`) and base `b ∈ [2, 36]`, prepending a leading minus sign negates
the decoded value: `decode("-" + s, b) == -decode(s, b)`. -/
theorem c6_minus_negates (b : Int) (s : List Char) (h2 : 2 ≤ b) (h36 : b ≤ 36)
    (hvalid : ∀ c ∈ s, isDigitFor c b = true) :
    ∃ v, parseBigIntFromBase s b = .ok v ∧ parseBigIntFromBase ('-' :: s) b = .ok (-v) := by
  have hvalid' : ∀ c ∈ s, ∃ d, charToDigit c = .ok d ∧ d < b :=
    fun c hc => (isDigitFor_iff c b).mp (hvalid c hc)
  have hns : ∀ c ∈ s, jsIsSpace c = false := by
    intro c hc
    obtain ⟨d, hd, _⟩ := hvalid' c hc
    exact valid_not_space c d hd
  have hnm : s.head? ≠ some '-' := by
    cases hs : s with
    | nil => simp
    | cons c t =>
      obtain ⟨d, hd, _⟩ := hvalid' c (hs ▸ List.mem_cons_self c t)
      simp only [List.head?_cons, ne_eq, Option.some.injEq]
      exact valid_ne_minus c d hd
  obtain ⟨r, hr⟩ := runDigits_ok b s hvalid' 0
  refine ⟨r, ?_, ?_⟩
  · rw [parse_of_digits b h2 h36 s hns hnm, hr]
  · rw [parse_minus b h2 h36 s hns, hr]

theorem c6_witness :
    ∃ v, parseBigIntFromBase ['1', '2'] 10 = .ok v ∧
      parseBigIntFromBase ['-', '1', '2'] 10 = .ok (-v) :=
  c6_minus_negates 10 ['1', '2'] (by norm_num) (by norm_num) (by decide)

/-- C7: the decoder rejects digits at or above the stated base and accepts
digits below it: decoding a character whose digit value `d` satisfies
`d ≥ b` fails with `digitOutOfRange`; in particular `decode("g", 16)` fails
with `digitOutOfRange` while `decode("z", 36)` succeeds with value 35. -/
theorem c7_digit_range_rejection :
    (∀ (c : Char) (d b : Int), 2 ≤ b → b ≤ 36 → charToDigit c = .ok d → b ≤ d →
      parseBigIntFromBase [c] b = .error (.digitOutOfRange c b)) ∧
    parseBigIntFromBase ['g'] 16 = .error (.digitOutOfRange 'g' 16) ∧
    parseBigIntFromBase ['z'] 36 = .ok 35 := by
  refine ⟨?_, by decide, by decide⟩
  intro c d b h2 h36 hc hbd
  have hns : ∀ x ∈ [c], jsIsSpace x = false := by
    intro x hx
    have hxc : x = c := by simpa using hx
    rw [hxc]
    exact valid_not_space c d hc
  have hnm : ([c]).head? ≠ some '-' := by
    simp only [List.head?_cons, ne_eq, Option.some.injEq]
    exact valid_ne_minus c d hc
  rw [parse_of_digits b h2 h36 [c] hns hnm]
  simp only [runDigits, hc]
  rw [if_pos (by omega)]

theorem c7_witness :
    parseBigIntFromBase ['h'] 17 = .error (.digitOutOfRange 'h' 17) :=
  c7_digit_range_rejection.1 'h' 17 17 (by norm_num) (by norm_num) (by decide) (by norm_num)

/-- C9: for every base `b ∈ [2, 36]`, decoding a string that is empty,
whitespace-only, or reduces to the empty string after trimming and
stripping a lone leading minus sign returns 0 rather than failing. -/
theorem c9_blank_or_minus_decodes_zero (b : Int) (s : List Char) (h2 : 2 ≤ b) (h36 : b ≤ 36)
    (h : trim s = [] ∨ trim s = ['-']) :
    parseBigIntFromBase s b = .ok 0 := by
  rw [parseBigIntFromBase, if_neg (by omega)]
  rcases h with h | h <;> rw [h] <;> simp [runDigits]

theorem c9_witness : parseBigIntFromBase [' ', '-'] 10 = .ok 0 :=
  c9_blank_or_minus_decodes_zero 10 [' ', '-'] (by norm_num) (by norm_num) (Or.inr (by decide))

/-! ### Pivot search -/

/-- If some row in the scanned window has a nonzero entry, `findPivot`
returns the first such row. -/
theorem findPivot_found (mat : Mat) (col : Nat) :
    ∀ k r, (∃ i, i < k ∧ (mat (r + i) col).num ≠ 0) →
      r ≤ findPivot mat col r k ∧ findPivot mat col r k < r + k ∧
      (mat (findPivot mat col r k) col).num ≠ 0 ∧
      ∀ j, r ≤ j → j < findPivot mat col r k → (mat j col).num = 0 := by
  intro k
  induction k with
  | zero =>
    rintro r ⟨i, hi, _⟩
    omega
  | succ k ih =>
    rintro r ⟨i, hi, hnz⟩
    by_cases h0 : (mat r col).num ≠ 0
    · rw [findPivot, if_pos h0]
      exact ⟨le_refl r, by omega, h0, fun j hj hj' => absurd hj (by omega)⟩
    · push_neg at h0
      rw [findPivot, if_neg (fun h => h h0)]
      have hi0 : i ≠ 0 := by
        rintro rfl
        rw [Nat.add_zero] at hnz
        exact hnz h0
      obtain ⟨i', rfl⟩ : ∃ i', i = i' + 1 := ⟨i - 1, by omega⟩
      have hex : ∃ i2, i2 < k ∧ (mat (r + 1 + i2) col).num ≠ 0 :=
        ⟨i', by omega, by rw [show r + 1 + i' = r + (i' + 1) by omega]; exact hnz⟩
      obtain ⟨h1, h2, h3, h4⟩ := ih (r + 1) hex
      refine ⟨by omega, by omega, h3, ?_⟩
      intro j hj hj'
      by_cases hjr : j = r
      · rw [hjr]; exact h0
      · exact h4 j (by omega) hj'

/-- If every row in the scanned window has a zero entry, `findPivot` returns
the default `col` (the source's initial `pivotRow = col`). -/
theorem findPivot_none (mat : Mat) (col : Nat) :
    ∀ k r, (∀ i, i < k → (mat (r + i) col).num = 0) → findPivot mat col r k = col := by
  intro k
  induction k with
  | zero => intro r _; rfl
  | succ k ih =>
    intro r h
    have h0 : (mat r col).num = 0 := by
      have := h 0 (by omega)
      rwa [Nat.add_zero] at this
    rw [findPivot, if_neg (fun hne => hne h0)]
    exact ih (r + 1) (fun i hi => by
      rw [show r + 1 + i = r + (i + 1) by omega]
      exact h (i + 1) (by omega))

/-- C8: the solver is deterministic: pivot selection always chooses the
lowest-index row among rows `col..n-1` with a nonzero entry in the pivot
column, and two runs of `solveLinearEquations` on the same matrix return
identical output (the embedding is a pure function, so determinism of the
swap sequence and output is definitional; the substantive content is the
first-nonzero tie-break). -/
theorem c8_pivot_lowest_index_deterministic :
    (∀ (mat : Mat) (col n r : Nat), col ≤ r → r < n → (mat r col).num ≠ 0 →
      (col ≤ findPivot mat col col (n - col) ∧
       findPivot mat col col (n - col) ≤ r ∧
       (mat (findPivot mat col col (n - col)) col).num ≠ 0 ∧
       ∀ j, col ≤ j → j < findPivot mat col col (n - col) → (mat j col).num = 0)) ∧
    (∀ matrix : List (List Int), solveLinearEquations matrix = solveLinearEquations matrix) := by
  refine ⟨?_, fun _ => rfl⟩
  intro mat col n r hcr hrn hnz
  have hex : ∃ i, i < n - col ∧ (mat (col + i) col).num ≠ 0 :=
    ⟨r - col, by omega, by rw [show col + (r - col) = r by omega]; exact hnz⟩
  obtain ⟨h1, h2, h3, h4⟩ := findPivot_found mat col (n - col) col hex
  refine ⟨h1, ?_, h3, h4⟩
  by_contra hgt
  push_neg at hgt
  exact hnz (h4 r hcr hgt)

theorem c8_witness :
    0 ≤ findPivot (fun r _ => if r = 1 then ⟨3, 1⟩ else ⟨0, 1⟩) 0 0 (2 - 0) ∧
    findPivot (fun r _ => if r = 1 then ⟨3, 1⟩ else ⟨0, 1⟩) 0 0 (2 - 0) ≤ 1 ∧
    ((fun r _ => if r = 1 then ⟨3, 1⟩ else ⟨0, 1⟩ : Mat)
      (findPivot (fun r _ => if r = 1 then ⟨3, 1⟩ else ⟨0, 1⟩) 0 0 (2 - 0)) 0).num ≠ 0 ∧
    ∀ j, 0 ≤ j → j < findPivot (fun r _ => if r = 1 then ⟨3, 1⟩ else ⟨0, 1⟩) 0 0 (2 - 0) →
      (((fun r _ => if r = 1 then ⟨3, 1⟩ else ⟨0, 1⟩ : Mat)) j 0).num = 0 :=
  c8_pivot_lowest_index_deterministic.1 (fun r _ => if r = 1 then ⟨3, 1⟩ else ⟨0, 1⟩) 0 2 1
    (by omega) (by omega) (by decide)

/-! ### Claims C2, C3, C4: fraction error handling and canonical form -/

/-- Exact division of an integer by the cast of its own absolute value gives
its sign. -/
theorem tdiv_natAbs_sign (N : Int) (h : N ≠ 0) : N.tdiv (N.natAbs : Int) = N.sign := by
  have hd : (N.natAbs : Int) ∣ N := Int.natAbs_dvd.mpr dvd_rfl
  rw [Int.tdiv_eq_ediv_of_dvd hd]
  rcases lt_trichotomy N 0 with hneg | h0 | hpos
  · rw [Int.ofNat_natAbs_of_nonpos (le_of_lt hneg), Int.ediv_neg, Int.ediv_self h,
      Int.sign_eq_neg_one_of_neg hneg]
  · exact absurd h0 h
  · rw [Int.natAbs_of_nonneg (le_of_lt hpos), Int.ediv_self h, Int.sign_eq_one_of_pos hpos]

/-- C3 counterexample: dividing `1/1` by the zero-numerator fraction `0/1`
does not fail; it returns the (nonsense) fraction `1/0`. -/
theorem c3_counterexample : divide ⟨1, 1⟩ ⟨0, 1⟩ = .ok ⟨1, 0⟩ := by decide

/-- C3 (amended): for a divisor with zero numerator, `divide` fails with the
division-by-zero error only when the cross product `a.num * b.den` is also
zero (the `0n / 0n` case inside `simplify`); otherwise it silently returns a
fraction with numerator `sign(a.num * b.den)` and denominator 0. -/
theorem c3_amended_divide_by_zero_num (a b : Fraction) (hb : b.num = 0) :
    divide a b =
      if a.num * b.den = 0 then .error .divisionByZero
      else .ok ⟨(a.num * b.den).sign, 0⟩ := by
  rw [divide, hb, mul_zero]
  by_cases hN : a.num * b.den = 0
  · rw [if_pos hN, hN]
    decide
  · rw [if_neg hN, simplify]
    have hgcd : jsGcd (a.num * b.den).natAbs (0 : Int).natAbs = (a.num * b.den).natAbs := by
      rw [jsGcd_eq_gcd]
      exact Nat.gcd_zero_left _
    have habs : ((a.num * b.den).natAbs : Int) ≠ 0 :=
      fun h => hN (Int.natAbs_eq_zero.mp (Int.natCast_eq_zero.mp h))
    simp only [hgcd]
    rw [if_neg (show ¬((0 : Int) < 0) by norm_num)]
    rw [if_neg habs]
    rw [Int.zero_tdiv, tdiv_natAbs_sign _ hN]

theorem c3_witness :
    divide ⟨2, 3⟩ ⟨0, 7⟩ =
      if (2 : Int) * 7 = 0 then .error .divisionByZero
      else .ok ⟨((2 : Int) * 7).sign, 0⟩ :=
  c3_amended_divide_by_zero_num ⟨2, 3⟩ ⟨0, 7⟩ rfl

/-- C4 counterexample: `divide` is a fraction-producing operation, its inputs
`3/2` and `0/5` both have nonzero denominators, yet the result `1/0` is not
in canonical form (its denominator is not positive). -/
theorem c4_counterexample : divide ⟨3, 2⟩ ⟨0, 5⟩ = .ok ⟨1, 0⟩ ∧ ¬ Canonical ⟨1, 0⟩ := by
  constructor
  · decide
  · rw [Canonical]
    decide

/-- C4 (amended): `simplify`, `add`, `subtract` and `multiply` return the
canonical form (coprime, positive denominator) whenever their input
denominators are nonzero; `divide` does so when additionally the divisor's
numerator is nonzero (so that the denominator it builds, `a.den * b.num`, is
nonzero — exactly the `reduce` precondition of the spec). -/
theorem c4_amended_canonical_form :
    (∀ f : Fraction, f.den ≠ 0 → ∃ g, simplify f = .ok g ∧ Canonical g) ∧
    (∀ a b : Fraction, a.den ≠ 0 → b.den ≠ 0 → ∃ c, add a b = .ok c ∧ Canonical c) ∧
    (∀ a b : Fraction, a.den ≠ 0 → b.den ≠ 0 → ∃ c, subtract a b = .ok c ∧ Canonical c) ∧
    (∀ a b : Fraction, a.den ≠ 0 → b.den ≠ 0 → ∃ c, multiply a b = .ok c ∧ Canonical c) ∧
    (∀ a b : Fraction, a.den ≠ 0 → b.den ≠ 0 → b.num ≠ 0 →
      ∃ c, divide a b = .ok c ∧ Canonical c) := by
  refine ⟨?_, ?_, ?_, ?_, ?_⟩
  · intro f hf
    obtain ⟨g, h1, h2, h3, _⟩ := simplify_spec f hf
    exact ⟨g, h1, h2, h3⟩
  · intro a b ha hb
    obtain ⟨c, h1, h2, h3, _⟩ := add_spec a b ha hb
    exact ⟨c, h1, h2, h3⟩
  · intro a b ha hb
    obtain ⟨c, h1, h2, h3, _⟩ := subtract_spec a b ha hb
    exact ⟨c, h1, h2, h3⟩
  · intro a b ha hb
    obtain ⟨c, h1, h2, h3, _⟩ := multiply_spec a b ha hb
    exact ⟨c, h1, h2, h3⟩
  · intro a b ha hb hbn
    obtain ⟨c, h1, h2, h3, _⟩ := divide_spec a b ha hb hbn
    exact ⟨c, h1, h2, h3⟩

theorem c4_witness : ∃ g, simplify ⟨4, 6⟩ = .ok g ∧ Canonical g :=
  c4_amended_canonical_form.1 ⟨4, 6⟩ (by decide)

/-- Dividing a zero-numerator fraction by itself reduces `0/0` and hence
fails with the division-by-zero error (this is exactly what the pivot
normalization does on a singular column). -/
theorem divide_self_zero_num (a : Fraction) (ha : a.num = 0) :
    divide a a = .error .divisionByZero := by
  rw [divide, ha, zero_mul, mul_zero]
  decide

/-- One Gauss-Jordan step on a column whose entries in rows `col..n-1` are
all exactly zero aborts with the division-by-zero error: the pivot search
finds nothing, `pivotRow` stays `col`, and normalization divides the zero
pivot by itself. -/
theorem gaussStep_singular (n m : Nat) (mat : Mat) (col : Nat) (hcol : col < n) (hcolm : col < m)
    (hzero : ∀ r, col ≤ r → r < n → (mat r col).num = 0) :
    gaussStep n m mat col = .error .divisionByZero := by
  have hfp : findPivot mat col col (n - col) = col :=
    findPivot_none mat col (n - col) col (fun i hi => hzero (col + i) (by omega) (by omega))
  obtain ⟨t, ht⟩ : ∃ t, m - col = t + 1 := ⟨m - col - 1, by omega⟩
  have hdiv : divide (mat col col) (mat col col) = .error .divisionByZero :=
    divide_self_zero_num _ (hzero col le_rfl hcol)
  rw [gaussStep, hfp]
  simp only [ne_eq, not_true_eq_false, if_false, ht, normLoop, hdiv]

/-- A matrix whose first column is entirely zero makes the solver abort
with the division-by-zero error. -/
theorem solve_singular_first_column (matrix : List (List Int)) (hne : matrix ≠ [])
    (hm : (matrix.headD []).length ≠ 0)
    (hz : ∀ r, r < matrix.length → entry matrix r 0 = 0) :
    solveLinearEquations matrix = .error .divisionByZero := by
  cases matrix with
  | nil => exact absurd rfl hne
  | cons row0 rest =>
    have hg : gaussStep (rest.length + 1) row0.length
        (fun r c => makeFraction (((row0 :: rest).getD r []).getD c 0)) 0 = .error .divisionByZero := by
      apply gaussStep_singular
      · omega
      · have h0 : row0.length ≠ 0 := by simpa using hm
        omega
      · intro r _ hr
        exact hz r (by simpa using hr)
    rw [solveLinearEquations]
    simp only [List.length_cons, elimAll, hg]

/-- C2 counterexample: the spec's own singular example, a duplicated row.
The solver aborts, but with the division-by-zero error raised while
reducing `0/0` during pivot normalization of column 1 — the source defines
no `SingularMatrix` error at all (the error type here enumerates every
throw site of the source). -/
theorem c2_counterexample :
    solveLinearEquations [[1, 1, 2], [1, 1, 2]] = .error .divisionByZero := by decide

/-- C2 (amended): when a pivot column holds only exactly-zero entries in
rows `col..n-1`, the solver aborts with the division-by-zero error (from
reducing `0/0` while normalizing the zero pivot), returning no partial
result; stated for one elimination step at any column, and for the whole
solver on a matrix whose first pivot column is all zero. -/
theorem c2_amended_singular_divisionByZero :
    (∀ (n m : Nat) (mat : Mat) (col : Nat), col < n → col < m →
      (∀ r, col ≤ r → r < n → (mat r col).num = 0) →
      gaussStep n m mat col = .error .divisionByZero) ∧
    (∀ matrix : List (List Int), matrix ≠ [] → (matrix.headD []).length ≠ 0 →
      (∀ r, r < matrix.length → entry matrix r 0 = 0) →
      solveLinearEquations matrix = .error .divisionByZero) :=
  ⟨gaussStep_singular, solve_singular_first_column⟩

theorem c2_witness :
    solveLinearEquations [[0, 5], [0, 7]] = .error .divisionByZero :=
  c2_amended_singular_divisionByZero.2 [[0, 5], [0, 7]] (by decide) (by decide) (by decide)

/-! ### Claim C1: solver correctness on non-singular systems

The invariants of the Gauss-Jordan loop: all denominators stay nonzero, the
already-processed columns form the identity, the rational solution set of
the (augmented) system is preserved, and the left block keeps a nonzero
determinant. -/

/-- All entries in the `n × m` working window have nonzero denominators. -/
def ValidMat (mat : Mat) (n m : Nat) : Prop :=
  ∀ r, r < n → ∀ c, c < m → (mat r c).den ≠ 0

/-- The first `col` columns of the working grid are the identity columns. -/
def IdCols (mat : Mat) (n col : Nat) : Prop :=
  ∀ r, r < n → ∀ c, c < col → val (mat r c) = if r = c then 1 else 0

/-- `x` satisfies every equation of the augmented grid (`n` unknowns,
constant column `n`). -/
def SatM (mat : Mat) (n : Nat) (x : Nat → ℚ) : Prop :=
  ∀ r, r < n → ∑ j ∈ Finset.range n, val (mat r j) * x j = val (mat r n)

/-- The rational left `n × n` block of the working grid. -/
def leftB (mat : Mat) (n : Nat) : Matrix (Fin n) (Fin n) ℚ :=
  Matrix.of fun i j => val (mat i j)

/-- The index permutation performed by a row swap. -/
def swapFn (a b r : Nat) : Nat := if r = a then b else if r = b then a else r

theorem updateEntry_same (mat : Mat) (r c : Nat) (v : Fraction) :
    updateEntry mat r c v r c = v := by
  simp [updateEntry]

theorem updateEntry_ne (mat : Mat) (r c : Nat) (v : Fraction) (r' c' : Nat)
    (h : r' ≠ r ∨ c' ≠ c) : updateEntry mat r c v r' c' = mat r' c' := by
  rw [updateEntry, if_neg]
  rintro ⟨rfl, rfl⟩
  rcases h with h | h <;> exact h rfl

theorem swapRows_apply (mat : Mat) (r1 r2 r c : Nat) :
    swapRows mat r1 r2 r c = mat (swapFn r1 r2 r) c := by
  rw [swapRows, swapFn]
  split_ifs <;> rfl

theorem swapFn_involutive (a b : Nat) : ∀ r, swapFn a b (swapFn a b r) = r := by
  intro r
  rw [swapFn, swapFn]
  split_ifs <;> omega

theorem swapFn_lt (a b n : Nat) (ha : a < n) (hb : b < n) :
    ∀ r, r < n → swapFn a b r < n := by
  intro r hr
  rw [swapFn]
  split_ifs <;> omega

theorem swap_coe (n col p : Nat) (hcol : col < n) (hp : p < n) (i : Fin n) :
    ((Equiv.swap (⟨col, hcol⟩ : Fin n) ⟨p, hp⟩ i : Fin n) : Nat) = swapFn col p (i : Nat) := by
  by_cases h1 : (i : Nat) = col
  · have hi : i = ⟨col, hcol⟩ := Fin.ext h1
    rw [hi, Equiv.swap_apply_left, swapFn]
    simp
  · by_cases h2 : (i : Nat) = p
    · have hi : i = ⟨p, hp⟩ := Fin.ext h2
      rw [hi, Equiv.swap_apply_right, swapFn]
      have : p ≠ col := fun h => h1 (h2.trans h)
      simp [this]
    · rw [Equiv.swap_apply_of_ne_of_ne (fun h => h1 (by rw [h]))
        (fun h => h2 (by rw [h])), swapFn, if_neg h1, if_neg h2]

/-- The normalization loop succeeds on a window of valid entries given a
valid, nonzero pivot, dividing exactly the window `[c, c+k)` of row `colI`
by the pivot value and leaving everything else untouched. -/
theorem normLoop_spec (pv : Fraction) (colI : Nat) (hpvd : pv.den ≠ 0) (hpvn : pv.num ≠ 0) :
    ∀ (k : Nat) (mat : Mat) (c : Nat),
      (∀ i, i < k → (mat colI (c + i)).den ≠ 0) →
      ∃ mat2, normLoop pv colI mat c k = .ok mat2 ∧
        (∀ r' c', (r' ≠ colI ∨ c' < c ∨ c + k ≤ c') → mat2 r' c' = mat r' c') ∧
        (∀ i, i < k → (mat2 colI (c + i)).den ≠ 0 ∧
          val (mat2 colI (c + i)) = val (mat colI (c + i)) / val pv) := by
  intro k
  induction k with
  | zero =>
    intro mat c _
    exact ⟨mat, rfl, fun r' c' _ => rfl, fun i hi => absurd hi (by omega)⟩
  | succ k ih =>
    intro mat c hd
    have h0 : (mat colI c).den ≠ 0 := by
      have := hd 0 (by omega)
      rwa [Nat.add_zero] at this
    obtain ⟨w, hw, hwpos, _, hwval⟩ := divide_spec (mat colI c) pv h0 hpvd hpvn
    have hwd : w.den ≠ 0 := by omega
    obtain ⟨mat2, h1, h2, h3⟩ := ih (updateEntry mat colI c w) (c + 1) (fun i hi => by
      rw [updateEntry_ne _ _ _ _ _ _ (Or.inr (by omega))]
      have := hd (i + 1) (by omega)
      rwa [show c + (i + 1) = c + 1 + i by omega] at this)
    refine ⟨mat2, by simp only [normLoop, hw]; exact h1, ?_, ?_⟩
    · intro r' c' hcond
      have huntouched : r' ≠ colI ∨ c' < c + 1 ∨ c + 1 + k ≤ c' := by
        rcases hcond with h | h | h
        · exact Or.inl h
        · exact Or.inr (Or.inl (by omega))
        · exact Or.inr (Or.inr (by omega))
      rw [h2 r' c' huntouched]
      apply updateEntry_ne
      rcases hcond with h | h | h
      · exact Or.inl h
      · exact Or.inr (by omega)
      · exact Or.inr (by omega)
    · intro i hi
      cases i with
      | zero =>
        rw [Nat.add_zero]
        have : mat2 colI c = updateEntry mat colI c w colI c :=
          h2 colI c (Or.inr (Or.inl (by omega)))
        rw [this, updateEntry_same]
        exact ⟨hwd, hwval⟩
      | succ i =>
        have hidx : c + (i + 1) = c + 1 + i := by omega
        have := h3 i (by omega)
        rw [updateEntry_ne _ _ _ _ _ _ (Or.inr (by omega))] at this
        rw [hidx]
        exact this

/-- The inner elimination loop on row `r ≠ pcol` succeeds on a window of
valid entries, subtracting `factor * (pivot row)` on exactly the window
`[c, c+k)` of row `r` and leaving everything else untouched. -/
theorem elimEntries_spec (pcol : Nat) (factor : Fraction) (hfd : factor.den ≠ 0) :
    ∀ (k : Nat) (mat : Mat) (r c : Nat), r ≠ pcol →
      (∀ i, i < k → (mat r (c + i)).den ≠ 0 ∧ (mat pcol (c + i)).den ≠ 0) →
      ∃ mat2, elimEntries pcol factor mat r c k = .ok mat2 ∧
        (∀ r' c', (r' ≠ r ∨ c' < c ∨ c + k ≤ c') → mat2 r' c' = mat r' c') ∧
        (∀ i, i < k → (mat2 r (c + i)).den ≠ 0 ∧
          val (mat2 r (c + i)) = val (mat r (c + i)) - val factor * val (mat pcol (c + i))) := by
  intro k
  induction k with
  | zero =>
    intro mat r c _ _
    exact ⟨mat, rfl, fun r' c' _ => rfl, fun i hi => absurd hi (by omega)⟩
  | succ k ih =>
    intro mat r c hrp hd
    have h0 := hd 0 (by omega)
    rw [Nat.add_zero] at h0
    obtain ⟨p, hp, hppos, _, hpval⟩ := multiply_spec factor (mat pcol c) hfd h0.2
    have hpd : p.den ≠ 0 := by omega
    obtain ⟨v, hv, hvpos, _, hvval⟩ := subtract_spec (mat r c) p h0.1 hpd
    have hvd : v.den ≠ 0 := by omega
    obtain ⟨mat2, h1, h2, h3⟩ := ih (updateEntry mat r c v) r (c + 1) hrp (fun i hi => by
      constructor
      · rw [updateEntry_ne _ _ _ _ _ _ (Or.inr (by omega))]
        have := (hd (i + 1) (by omega)).1
        rwa [show c + (i + 1) = c + 1 + i by omega] at this
      · rw [updateEntry_ne _ _ _ _ _ _ (Or.inr (by omega))]
        have := (hd (i + 1) (by omega)).2
        rwa [show c + (i + 1) = c + 1 + i by omega] at this)
    refine ⟨mat2, by simp only [elimEntries, hp, hv]; exact h1, ?_, ?_⟩
    · intro r' c' hcond
      have huntouched : r' ≠ r ∨ c' < c + 1 ∨ c + 1 + k ≤ c' := by
        rcases hcond with h | h | h
        · exact Or.inl h
        · exact Or.inr (Or.inl (by omega))
        · exact Or.inr (Or.inr (by omega))
      rw [h2 r' c' huntouched]
      apply updateEntry_ne
      rcases hcond with h | h | h
      · exact Or.inl h
      · exact Or.inr (by omega)
      · exact Or.inr (by omega)
    · intro i hi
      cases i with
      | zero =>
        rw [Nat.add_zero]
        have heq : mat2 r c = updateEntry mat r c v r c :=
          h2 r c (Or.inr (Or.inl (by omega)))
        rw [heq, updateEntry_same, hvval, hpval]
        exact ⟨hvd, rfl⟩
      | succ i =>
        have hidx : c + (i + 1) = c + 1 + i := by omega
        have hstep := h3 i (by omega)
        rw [updateEntry_ne _ _ _ _ _ _ (Or.inr (by omega)),
          updateEntry_ne _ _ _ _ _ _ (Or.inr (by omega))] at hstep
        rw [hidx]
        exact hstep

/-- The outer elimination loop over rows `r..r+k-1` succeeds when all the
involved entries are valid: every processed row `r' ≠ col` receives
`row r' - mat[r'][col] * (pivot row)` on the column window `[col, m)`; the
pivot row `col` and everything outside the window are untouched. -/
theorem elimRows_spec (m col : Nat) (hcolm : col < m) :
    ∀ (k : Nat) (mat : Mat) (r : Nat),
      (∀ r', r ≤ r' → r' < r + k → r' ≠ col → ∀ c, col ≤ c → c < m → (mat r' c).den ≠ 0) →
      (∀ c, col ≤ c → c < m → (mat col c).den ≠ 0) →
      ∃ mat2, elimRows m col mat r k = .ok mat2 ∧
        (∀ r' c', (r' < r ∨ r + k ≤ r' ∨ r' = col ∨ c' < col ∨ m ≤ c') → mat2 r' c' = mat r' c') ∧
        (∀ r', r ≤ r' → r' < r + k → r' ≠ col → ∀ c, col ≤ c → c < m →
          (mat2 r' c).den ≠ 0 ∧
          val (mat2 r' c) = val (mat r' c) - val (mat r' col) * val (mat col c)) := by
  intro k
  induction k with
  | zero =>
    intro mat r _ _
    exact ⟨mat, rfl, fun r' c' _ => rfl, fun r' h1 h2 _ => absurd h2 (by omega)⟩
  | succ k ih =>
    intro mat r hrows hcolrow
    by_cases hrc : r = col
    · obtain ⟨mat2, h1, h2, h3⟩ := ih mat (r + 1)
        (fun r' hr1 hr2 hne c hc1 hc2 => hrows r' (by omega) (by omega) hne c hc1 hc2)
        hcolrow
      refine ⟨mat2, by simp only [elimRows, if_pos hrc]; exact h1, ?_, ?_⟩
      · intro r' c' hcond
        apply h2
        rcases hcond with h | h | h | h | h
        · exact Or.inl (by omega)
        · exact Or.inr (Or.inl (by omega))
        · exact Or.inr (Or.inr (Or.inl h))
        · exact Or.inr (Or.inr (Or.inr (Or.inl h)))
        · exact Or.inr (Or.inr (Or.inr (Or.inr h)))
      · intro r' hr1 hr2 hne c hc1 hc2
        have hr1' : r + 1 ≤ r' := by
          have hner : r' ≠ r := fun h => hne (h.trans hrc)
          omega
        exact h3 r' hr1' (by omega) hne c hc1 hc2
    · have hfd : (mat r col).den ≠ 0 := hrows r le_rfl (by omega) hrc col le_rfl hcolm
      have hwindow : col + (m - col) = m := by omega
      obtain ⟨mat1, he1, he2, he3⟩ := elimEntries_spec col (mat r col) hfd (m - col) mat r col hrc
        (fun i hi => ⟨hrows r le_rfl (by omega) hrc (col + i) (by omega) (by omega),
          hcolrow (col + i) (by omega) (by omega)⟩)
      have hmat1_other : ∀ r' c', r' ≠ r → mat1 r' c' = mat r' c' :=
        fun r' c' h => he2 r' c' (Or.inl h)
      obtain ⟨mat2, h1, h2, h3⟩ := ih mat1 (r + 1)
        (fun r' hr1 hr2 hne c hc1 hc2 => by
          rw [hmat1_other r' c (by omega)]
          exact hrows r' (by omega) (by omega) hne c hc1 hc2)
        (fun c hc1 hc2 => by
          rw [hmat1_other col c (fun h => hrc h.symm)]
          exact hcolrow c hc1 hc2)
      refine ⟨mat2, by simp only [elimRows, if_neg hrc, he1]; exact h1, ?_, ?_⟩
      · intro r' c' hcond
        have hne_r : r' ≠ r ∨ c' < col ∨ m ≤ c' := by
          rcases hcond with h | h | h | h | h
          · exact Or.inl (by omega)
          · exact Or.inl (by omega)
          · exact Or.inl (fun he => hrc (he ▸ h))
          · exact Or.inr (Or.inl h)
          · exact Or.inr (Or.inr h)
        have step1 : mat1 r' c' = mat r' c' := by
          rcases hne_r with h | h | h
          · exact hmat1_other r' c' h
          · exact he2 r' c' (Or.inr (Or.inl h))
          · exact he2 r' c' (Or.inr (Or.inr (by omega)))
        rw [← step1]
        apply h2
        rcases hcond with h | h | h | h | h
        · exact Or.inl (by omega)
        · exact Or.inr (Or.inl (by omega))
        · exact Or.inr (Or.inr (Or.inl h))
        · exact Or.inr (Or.inr (Or.inr (Or.inl h)))
        · exact Or.inr (Or.inr (Or.inr (Or.inr h)))
      · intro r' hr1 hr2 hne c hc1 hc2
        by_cases hrr : r' = r
        · rw [hrr]
          have hfix : mat2 r c = mat1 r c := h2 r c (Or.inl (by omega))
          have hstep := he3 (c - col) (by omega)
          rw [show col + (c - col) = c by omega] at hstep
          rw [hfix]
          exact hstep
        · have hvals := h3 r' (by omega) (by omega) hne c hc1 hc2
          rw [hmat1_other r' c (by omega), hmat1_other r' col (by omega),
            hmat1_other col c (fun h => hrc h.symm)] at hvals
          exact hvals

/-- A zero-valued numerator means the rational value is zero. -/
theorem val_eq_zero_of_num_eq_zero (f : Fraction) (h : f.num = 0) : val f = 0 := by
  rw [val, h]
  simp

/-- If the processed columns are the identity and the left block is
non-singular, the pivot column must contain a nonzero numerator in some row
`col..n-1` (otherwise column `col` would be a linear combination of the
identity columns and the determinant would vanish). -/
theorem pivot_exists (mat : Mat) (n col : Nat) (hcol : col < n)
    (hid : IdCols mat n col) (hdet : (leftB mat n).det ≠ 0) :
    ∃ r, col ≤ r ∧ r < n ∧ (mat r col).num ≠ 0 := by
  by_contra hallzero
  push_neg at hallzero
  apply hdet
  rw [← Matrix.exists_mulVec_eq_zero_iff_aux]
  refine ⟨fun j => if (j : Nat) = col then 1
    else if (j : Nat) < col then -(val (mat j col)) else 0, ?_, ?_⟩
  · intro h0
    have h1 := congrFun h0 (⟨col, hcol⟩ : Fin n)
    simp at h1
  · funext i
    show (leftB mat n).mulVec (fun j => if (j : Nat) = col then 1
      else if (j : Nat) < col then -(val (mat j col)) else 0) i = (0 : Fin n → ℚ) i
    have hsplit : ∀ j : Fin n, leftB mat n i j *
        (if (j : Nat) = col then 1 else if (j : Nat) < col then -(val (mat j col)) else 0)
        = (if j = (⟨col, hcol⟩ : Fin n) then val (mat i col) else 0)
          + (if j = i then (if (i : Nat) < col then -(val (mat i col)) else 0) else 0) := by
      intro j
      by_cases hj : (j : Nat) = col
      · have hjF : j = (⟨col, hcol⟩ : Fin n) := Fin.ext hj
        rw [if_pos hj, if_pos hjF, mul_one]
        have hcolval : leftB mat n i j = val (mat i col) := by
          rw [leftB, Matrix.of_apply, hj]
        rw [hcolval]
        by_cases hji : j = i
        · have hnlt : ¬ (i : Nat) < col := by
            rw [← hji, hj]
            omega
          rw [if_pos hji, if_neg hnlt, add_zero]
        · rw [if_neg hji, add_zero]
      · have hjF : j ≠ (⟨col, hcol⟩ : Fin n) := fun h => hj (by rw [h])
        rw [if_neg hj, if_neg hjF, zero_add]
        by_cases hjlt : (j : Nat) < col
        · rw [if_pos hjlt]
          have hMij : leftB mat n i j = if (i : Nat) = (j : Nat) then 1 else 0 :=
            hid i i.isLt j hjlt
          by_cases hji : j = i
          · have hii : (i : Nat) = (j : Nat) := by rw [hji]
            have hilt : (i : Nat) < col := by rw [hii]; exact hjlt
            have hvv : val (mat (j : Nat) col) = val (mat (i : Nat) col) := by rw [hji]
            rw [hMij, if_pos hii, one_mul, if_pos hji, if_pos hilt, hvv]
          · have hii : ¬ (i : Nat) = (j : Nat) := fun h => hji (Fin.ext h.symm)
            rw [hMij, if_neg hii, zero_mul, if_neg hji]
        · rw [if_neg hjlt, mul_zero]
          by_cases hji : j = i
          · have hnlt : ¬ (i : Nat) < col := by rw [← hji]; exact hjlt
            rw [if_pos hji, if_neg hnlt]
          · rw [if_neg hji]
    simp only [Matrix.mulVec, Matrix.dotProduct, Pi.zero_apply]
    rw [Finset.sum_congr rfl (fun j _ => hsplit j), Finset.sum_add_distrib,
      Finset.sum_ite_eq' Finset.univ (⟨col, hcol⟩ : Fin n) (fun _ => val (mat i col)),
      Finset.sum_ite_eq' Finset.univ i
        (fun _ => if (i : Nat) < col then -(val (mat i col)) else 0)]
    simp only [Finset.mem_univ, if_pos]
    by_cases hic : (i : Nat) < col
    · rw [if_pos hic]
      ring
    · rw [if_neg hic]
      rw [val_eq_zero_of_num_eq_zero _ (hallzero i (by omega) i.isLt)]
      ring



theorem det_swap_ne_zero (mat mat1 : Mat) (n col p : Nat) (hcol : col < n) (hp : p < n)
    (hmat1 : ∀ r c, mat1 r c = mat (swapFn col p r) c)
    (hdet : (leftB mat n).det ≠ 0) : (leftB mat1 n).det ≠ 0 := by
  have hsub : leftB mat1 n
      = (leftB mat n).submatrix (Equiv.swap (⟨col, hcol⟩ : Fin n) ⟨p, hp⟩) id := by
    apply Matrix.ext
    intro i j
    rw [Matrix.submatrix_apply, id_eq]
    show val (mat1 i j) = val (mat ((Equiv.swap (⟨col, hcol⟩ : Fin n) ⟨p, hp⟩ i : Fin n) : Nat) j)
    rw [hmat1, swap_coe]
  rw [hsub, Matrix.det_permute]
  apply mul_ne_zero ?_ hdet
  rcases Int.units_eq_one_or (Equiv.Perm.sign (Equiv.swap (⟨col, hcol⟩ : Fin n) ⟨p, hp⟩)) with hs | hs <;>
    rw [hs] <;> norm_num

theorem det_elim_aux (n : Nat) (A : Matrix (Fin n) (Fin n) ℚ) (colF : Fin n) (f : Fin n → ℚ) :
    ∀ S : Finset (Fin n), colF ∉ S →
      (Matrix.of fun r j => if r ∈ S then A r j - f r * A colF j else A r j).det = A.det := by
  intro S
  induction S using Finset.induction_on with
  | empty =>
    intro _
    have hA : (Matrix.of fun r j => if r ∈ (∅ : Finset (Fin n)) then A r j - f r * A colF j
        else A r j) = A := by
      apply Matrix.ext
      intro r j
      simp
    rw [hA]
  | insert haS ih =>
    rename_i a S
    intro hcol
    have hacol : a ≠ colF := fun h => hcol (h ▸ Finset.mem_insert_self a S)
    have hcolS : colF ∉ S := fun h => hcol (Finset.mem_insert_of_mem h)
    have hBa : ∀ j, (Matrix.of fun r j => if r ∈ S then A r j - f r * A colF j else A r j) a j
        = A a j := by
      intro j
      rw [Matrix.of_apply, if_neg haS]
    have hBcol : ∀ j, (Matrix.of fun r j => if r ∈ S then A r j - f r * A colF j else A r j) colF j
        = A colF j := by
      intro j
      rw [Matrix.of_apply, if_neg hcolS]
    have hstep : (Matrix.of fun r j => if r ∈ insert a S then A r j - f r * A colF j else A r j)
        = Matrix.updateRow (Matrix.of fun r j => if r ∈ S then A r j - f r * A colF j else A r j) a
          ((Matrix.of fun r j => if r ∈ S then A r j - f r * A colF j else A r j) a
            + (-(f a)) • (Matrix.of fun r j => if r ∈ S then A r j - f r * A colF j else A r j) colF) := by
      apply Matrix.ext
      intro r j
      by_cases hra : r = a
      · rw [hra, Matrix.of_apply, if_pos (Finset.mem_insert_self a S), Matrix.updateRow_self]
        rw [Pi.add_apply, Pi.smul_apply, smul_eq_mul, hBa, hBcol]
        ring
      · rw [Matrix.of_apply, Matrix.updateRow_ne hra, Matrix.of_apply]
        have : r ∈ insert a S ↔ r ∈ S := by
          rw [Finset.mem_insert]
          exact ⟨fun h => h.resolve_left hra, Or.inr⟩
        by_cases hrS : r ∈ S
        · rw [if_pos (this.mpr hrS), if_pos hrS]
        · rw [if_neg (fun h => hrS (this.mp h)), if_neg hrS]
    rw [hstep, Matrix.det_updateRow_add_smul_self _ hacol (-(f a))]
    exact ih hcolS

theorem det_after_elim (mat2 mat3 : Mat) (n col : Nat) (hcol : col < n)
    (hcolsame : ∀ j, j < n → mat3 col j = mat2 col j)
    (helim : ∀ r, r < n → r ≠ col → ∀ j, j < n →
      val (mat3 r j) = val (mat2 r j) - val (mat2 r col) * val (mat2 col j)) :
    (leftB mat3 n).det = (leftB mat2 n).det := by
  have hmat : leftB mat3 n = Matrix.of fun r j =>
      if r ∈ Finset.univ.erase (⟨col, hcol⟩ : Fin n)
      then leftB mat2 n r j - (fun i : Fin n => val (mat2 i col)) r * leftB mat2 n ⟨col, hcol⟩ j
      else leftB mat2 n r j := by
    apply Matrix.ext
    intro r j
    rw [Matrix.of_apply]
    by_cases hrc : r = (⟨col, hcol⟩ : Fin n)
    · rw [if_neg (by rw [hrc]; exact Finset.not_mem_erase _ _)]
      show val (mat3 r j) = val (mat2 r j)
      rw [hrc]
      show val (mat3 col j) = val (mat2 col j)
      rw [hcolsame j j.isLt]
    · rw [if_pos (Finset.mem_erase.mpr ⟨hrc, Finset.mem_univ r⟩)]
      have hrcn : (r : Nat) ≠ col := fun h => hrc (Fin.ext h)
      exact helim r r.isLt hrcn j j.isLt
  rw [hmat]
  exact det_elim_aux n (leftB mat2 n) ⟨col, hcol⟩ (fun i => val (mat2 i col))
    (Finset.univ.erase ⟨col, hcol⟩) (Finset.not_mem_erase _ _)

theorem det_scale_ne_zero (mat1 mat2 : Mat) (n col : Nat) (hcol : col < n) (q : ℚ) (hq : q ≠ 0)
    (hrow : ∀ j, j < n → val (mat2 col j) = val (mat1 col j) / q)
    (hoth : ∀ r c, r ≠ col → mat2 r c = mat1 r c)
    (hdet : (leftB mat1 n).det ≠ 0) : (leftB mat2 n).det ≠ 0 := by
  have hmat : leftB mat2 n = Matrix.updateRow (leftB mat1 n) (⟨col, hcol⟩ : Fin n)
      (q⁻¹ • (leftB mat1 n ⟨col, hcol⟩)) := by
    apply Matrix.ext
    intro i j
    by_cases hic : i = (⟨col, hcol⟩ : Fin n)
    · rw [hic, Matrix.updateRow_self, Pi.smul_apply, smul_eq_mul]
      show val (mat2 col j) = q⁻¹ * val (mat1 col j)
      rw [hrow j j.isLt, div_eq_inv_mul]
    · rw [Matrix.updateRow_ne hic]
      show val (mat2 i j) = val (mat1 i j)
      rw [hoth i j (fun h => hic (Fin.ext h))]
  rw [hmat, Matrix.det_updateRow_smul, Matrix.updateRow_eq_self]
  exact mul_ne_zero (inv_ne_zero hq) hdet

theorem SatM_swap (mat mat1 : Mat) (n col p : Nat) (hcol : col < n) (hp : p < n)
    (hmat1 : ∀ r c, mat1 r c = mat (swapFn col p r) c) (x : Nat → ℚ) :
    SatM mat n x ↔ SatM mat1 n x := by
  constructor
  · intro h r hr
    have hs := h (swapFn col p r) (swapFn_lt col p n hcol hp r hr)
    calc ∑ j ∈ Finset.range n, val (mat1 r j) * x j
        = ∑ j ∈ Finset.range n, val (mat (swapFn col p r) j) * x j :=
          Finset.sum_congr rfl (fun j _ => by rw [hmat1])
      _ = val (mat (swapFn col p r) n) := hs
      _ = val (mat1 r n) := by rw [hmat1]
  · intro h r hr
    have hs := h (swapFn col p r) (swapFn_lt col p n hcol hp r hr)
    have hback : ∀ c, mat r c = mat1 (swapFn col p r) c := by
      intro c
      rw [hmat1, swapFn_involutive]
    calc ∑ j ∈ Finset.range n, val (mat r j) * x j
        = ∑ j ∈ Finset.range n, val (mat1 (swapFn col p r) j) * x j :=
          Finset.sum_congr rfl (fun j _ => by rw [hback])
      _ = val (mat1 (swapFn col p r) n) := hs
      _ = val (mat r n) := by rw [← hback]

theorem SatM_scale (mat1 mat2 : Mat) (n col : Nat) (hcol : col < n) (q : ℚ) (hq : q ≠ 0)
    (hrow : ∀ j, j ≤ n → val (mat2 col j) = val (mat1 col j) / q)
    (hoth : ∀ r c, r ≠ col → mat2 r c = mat1 r c) (x : Nat → ℚ) :
    SatM mat1 n x ↔ SatM mat2 n x := by
  have key : ∀ r, r < n →
      ((∑ j ∈ Finset.range n, val (mat2 r j) * x j = val (mat2 r n)) ↔
       (∑ j ∈ Finset.range n, val (mat1 r j) * x j = val (mat1 r n))) := by
    intro r hr
    by_cases hrc : r = col
    · subst hrc
      have hsum : ∑ j ∈ Finset.range n, val (mat2 r j) * x j
          = (∑ j ∈ Finset.range n, val (mat1 r j) * x j) / q := by
        rw [Finset.sum_div]
        apply Finset.sum_congr rfl
        intro j hj
        rw [hrow j (le_of_lt (Finset.mem_range.mp hj)), div_mul_eq_mul_div]
      rw [hsum, hrow n le_rfl]
      exact div_left_inj' hq
    · have hsame : ∀ j, val (mat2 r j) = val (mat1 r j) := fun j => by rw [hoth r j hrc]
      rw [Finset.sum_congr rfl (fun j _ => by rw [hsame]), hsame]
  constructor
  · intro h r hr
    exact (key r hr).mpr (h r hr)
  · intro h r hr
    exact (key r hr).mp (h r hr)

theorem SatM_elim (mat2 mat3 : Mat) (n col : Nat) (hcol : col < n)
    (hcolsame : ∀ j, j ≤ n → mat3 col j = mat2 col j)
    (helim : ∀ r, r < n → r ≠ col → ∀ j, j ≤ n →
      val (mat3 r j) = val (mat2 r j) - val (mat2 r col) * val (mat2 col j)) (x : Nat → ℚ) :
    SatM mat2 n x ↔ SatM mat3 n x := by
  have hcoleq : (∑ j ∈ Finset.range n, val (mat3 col j) * x j = val (mat3 col n)) ↔
      (∑ j ∈ Finset.range n, val (mat2 col j) * x j = val (mat2 col n)) := by
    rw [Finset.sum_congr rfl (fun j hj => by
        rw [hcolsame j (le_of_lt (Finset.mem_range.mp hj))]),
      hcolsame n le_rfl]
  have hexpand : ∀ r, r < n → r ≠ col →
      ∑ j ∈ Finset.range n, val (mat3 r j) * x j
        = (∑ j ∈ Finset.range n, val (mat2 r j) * x j)
          - val (mat2 r col) * ∑ j ∈ Finset.range n, val (mat2 col j) * x j := by
    intro r hr hrc
    rw [Finset.mul_sum, ← Finset.sum_sub_distrib]
    apply Finset.sum_congr rfl
    intro j hj
    rw [helim r hr hrc j (le_of_lt (Finset.mem_range.mp hj))]
    ring
  constructor
  · intro h r hr
    by_cases hrc : r = col
    · rw [hrc]
      exact hcoleq.mpr (h col hcol)
    · rw [hexpand r hr hrc, h r hr, h col hcol, helim r hr hrc n le_rfl]
  · intro h r hr
    by_cases hrc : r = col
    · rw [hrc]
      exact hcoleq.mp (h col hcol)
    · have h3 := h r hr
      rw [hexpand r hr hrc, helim r hr hrc n le_rfl] at h3
      have hc2 : ∑ j ∈ Finset.range n, val (mat2 col j) * x j = val (mat2 col n) :=
        hcoleq.mp (h col hcol)
      rw [hc2] at h3
      linarith [h3]


/-- One full Gauss-Jordan step preserves all four loop invariants and
succeeds, provided the state is valid, the processed columns are the
identity, and the left block is non-singular. -/
theorem gaussStep_spec (n : Nat) (mat : Mat) (col : Nat) (hcol : col < n)
    (hval : ValidMat mat n (n + 1)) (hid : IdCols mat n col)
    (hdet : (leftB mat n).det ≠ 0) :
    ∃ mat3, gaussStep n (n + 1) mat col = .ok mat3 ∧
      ValidMat mat3 n (n + 1) ∧ IdCols mat3 n (col + 1) ∧
      (leftB mat3 n).det ≠ 0 ∧ ∀ x : Nat → ℚ, SatM mat n x ↔ SatM mat3 n x := by
  obtain ⟨r0, hr0c, hr0n, hr0nz⟩ := pivot_exists mat n col hcol hid hdet
  have hfp := findPivot_found mat col (n - col) col
    ⟨r0 - col, by omega, by rw [show col + (r0 - col) = r0 by omega]; exact hr0nz⟩
  set p := findPivot mat col col (n - col) with hpdef
  obtain ⟨hpc, hpn', hpnz, hpmin⟩ := hfp
  have hpn : p < n := by omega
  set mat1 : Mat := if p ≠ col then swapRows mat col p else mat with hmat1def
  have hmat1 : ∀ r c, mat1 r c = mat (swapFn col p r) c := by
    intro r c
    rw [hmat1def]
    by_cases hpceq : p = col
    · rw [if_neg (fun h => h hpceq)]
      have hswap : swapFn col p r = r := by
        rw [swapFn, hpceq]
        split_ifs <;> omega
      rw [hswap]
    · rw [if_pos hpceq, swapRows_apply]
  have hval1 : ValidMat mat1 n (n + 1) := by
    intro r hr c hc
    rw [hmat1]
    exact hval _ (swapFn_lt col p n hcol hpn r hr) c hc
  have hid1 : IdCols mat1 n col := by
    intro r hr c hc
    rw [hmat1, hid _ (swapFn_lt col p n hcol hpn r hr) c hc]
    have hiff : (swapFn col p r = c) ↔ (r = c) := by
      rw [swapFn]
      split_ifs <;> omega
    by_cases hrc2 : r = c
    · rw [if_pos (hiff.mpr hrc2), if_pos hrc2]
    · rw [if_neg (fun h => hrc2 (hiff.mp h)), if_neg hrc2]
  have hdet1 : (leftB mat1 n).det ≠ 0 := det_swap_ne_zero mat mat1 n col p hcol hpn hmat1 hdet
  have hsat1 : ∀ x, SatM mat n x ↔ SatM mat1 n x :=
    fun x => SatM_swap mat mat1 n col p hcol hpn hmat1 x
  set pv : Fraction := mat1 col col with hpvdef
  have hpv_eq : pv = mat p col := by
    rw [hpvdef, hmat1]
    have hsw : swapFn col p col = p := by rw [swapFn]; simp
    rw [hsw]
  have hpvn : pv.num ≠ 0 := by rw [hpv_eq]; exact hpnz
  have hpvd : pv.den ≠ 0 := by rw [hpv_eq]; exact hval p hpn col (by omega)
  have hpvval : val pv ≠ 0 := by
    rw [val]
    exact div_ne_zero (Int.cast_ne_zero.mpr hpvn) (Int.cast_ne_zero.mpr hpvd)
  obtain ⟨mat2, hnorm, hnorm_un, hnorm_val⟩ := normLoop_spec pv col hpvd hpvn (n + 1 - col) mat1 col
    (fun i hi => hval1 col hcol (col + i) (by omega))
  have hnorm_un' : ∀ r c, (r ≠ col ∨ c < col) → mat2 r c = mat1 r c := by
    intro r c h
    apply hnorm_un
    rcases h with h | h
    · exact Or.inl h
    · exact Or.inr (Or.inl h)
  have hrow2 : ∀ j, j ≤ n → val (mat2 col j) = val (mat1 col j) / val pv := by
    intro j hj
    by_cases hjcol : col ≤ j
    · have hv := (hnorm_val (j - col) (by omega)).2
      rwa [show col + (j - col) = j by omega] at hv
    · push_neg at hjcol
      have h0 : val (mat1 col j) = 0 := by
        rw [hid1 col hcol j hjcol, if_neg (by omega)]
      rw [hnorm_un' col j (Or.inr hjcol), h0, zero_div]
  have hden2 : ∀ j, col ≤ j → j ≤ n → (mat2 col j).den ≠ 0 := by
    intro j h1 h2
    have hv := (hnorm_val (j - col) (by omega)).1
    rwa [show col + (j - col) = j by omega] at hv
  have hval2 : ValidMat mat2 n (n + 1) := by
    intro r hr c hc
    by_cases hrc2 : r = col
    · by_cases hcc : col ≤ c
      · rw [hrc2]
        exact hden2 c hcc (by omega)
      · rw [hrc2, hnorm_un' col c (Or.inr (by omega))]
        exact hval1 col hcol c hc
    · rw [hnorm_un' r c (Or.inl hrc2)]
      exact hval1 r hr c hc
  have hid2 : IdCols mat2 n col := by
    intro r hr c hc
    by_cases hrc2 : r = col
    · rw [hrc2, hnorm_un' col c (Or.inr hc)]
      exact hid1 col hcol c hc
    · rw [hnorm_un' r c (Or.inl hrc2)]
      exact hid1 r hr c hc
  have hpivot1 : val (mat2 col col) = 1 := by
    rw [hrow2 col (by omega), ← hpvdef]
    exact div_self hpvval
  have hdet2 : (leftB mat2 n).det ≠ 0 := det_scale_ne_zero mat1 mat2 n col hcol (val pv) hpvval
    (fun j hj => hrow2 j (by omega)) (fun r c hrc2 => hnorm_un' r c (Or.inl hrc2)) hdet1
  have hsat2 : ∀ x, SatM mat1 n x ↔ SatM mat2 n x := fun x =>
    SatM_scale mat1 mat2 n col hcol (val pv) hpvval hrow2
      (fun r c hrc2 => hnorm_un' r c (Or.inl hrc2)) x
  obtain ⟨mat3, helim0, helim_un, helim_val⟩ := elimRows_spec (n + 1) col (by omega) n mat2 0
    (fun r h1 h2 hne c hc1 hc2 => hval2 r (by omega) c hc2)
    (fun c hc1 hc2 => hval2 col hcol c hc2)
  have hcolsame : ∀ j, mat3 col j = mat2 col j := fun j =>
    helim_un col j (Or.inr (Or.inr (Or.inl rfl)))
  have helim3 : ∀ r, r < n → r ≠ col → ∀ j, j ≤ n →
      val (mat3 r j) = val (mat2 r j) - val (mat2 r col) * val (mat2 col j) := by
    intro r hr hrc2 j hj
    by_cases hjc : col ≤ j
    · exact (helim_val r (by omega) (by omega) hrc2 j hjc (by omega)).2
    · push_neg at hjc
      rw [helim_un r j (Or.inr (Or.inr (Or.inr (Or.inl hjc))))]
      have h0 : val (mat2 col j) = 0 := by
        rw [hid2 col hcol j hjc, if_neg (by omega)]
      rw [h0, mul_zero, sub_zero]
  have hval3 : ValidMat mat3 n (n + 1) := by
    intro r hr c hc
    by_cases hrc2 : r = col
    · rw [hrc2, hcolsame c]
      exact hval2 col hcol c hc
    · by_cases hcc : col ≤ c
      · exact (helim_val r (by omega) (by omega) hrc2 c hcc (by omega)).1
      · rw [helim_un r c (Or.inr (Or.inr (Or.inr (Or.inl (by omega)))))]
        exact hval2 r hr c hc
  have hid3 : IdCols mat3 n (col + 1) := by
    intro r hr c hc
    by_cases hcl : c < col
    · by_cases hrc2 : r = col
      · rw [hrc2, hcolsame c]
        exact hid2 col hcol c hcl
      · rw [helim_un r c (Or.inr (Or.inr (Or.inr (Or.inl hcl))))]
        exact hid2 r hr c hcl
    · have hceq : c = col := by omega
      rw [hceq]
      by_cases hrc2 : r = col
      · rw [hrc2, hcolsame col, if_pos rfl]
        exact hpivot1
      · rw [if_neg hrc2, helim3 r hr hrc2 col (by omega), hpivot1, mul_one, sub_self]
  have hdet3 : (leftB mat3 n).det ≠ 0 := by
    rw [det_after_elim mat2 mat3 n col hcol (fun j _ => hcolsame j)
      (fun r hr hrc2 j hj => helim3 r hr hrc2 j (by omega))]
    exact hdet2
  have hsat3 : ∀ x, SatM mat2 n x ↔ SatM mat3 n x := fun x =>
    SatM_elim mat2 mat3 n col hcol (fun j _ => hcolsame j) helim3 x
  refine ⟨mat3, ?_, hval3, hid3, hdet3, fun x => ((hsat1 x).trans (hsat2 x)).trans (hsat3 x)⟩
  rw [gaussStep]
  rw [← hpdef, ← hmat1def, ← hpvdef, hnorm]
  exact helim0


/-- The whole column loop establishes the full identity block while
preserving validity and the solution set. -/
theorem elimAll_spec (n : Nat) :
    ∀ (k col : Nat) (mat : Mat), col + k = n →
      ValidMat mat n (n + 1) → IdCols mat n col → (leftB mat n).det ≠ 0 →
      ∃ matF, elimAll n (n + 1) mat col k = .ok matF ∧
        ValidMat matF n (n + 1) ∧ IdCols matF n n ∧
        ∀ x : Nat → ℚ, SatM mat n x ↔ SatM matF n x := by
  intro k
  induction k with
  | zero =>
    intro col mat hck hv hi hd
    have hcn : col = n := by omega
    exact ⟨mat, rfl, hv, hcn ▸ hi, fun x => Iff.rfl⟩
  | succ k ih =>
    intro col mat hck hv hi hd
    obtain ⟨mat3, hstep, hv3, hi3, hd3, hs3⟩ := gaussStep_spec n mat col (by omega) hv hi hd
    obtain ⟨matF, hall, hvF, hiF, hsF⟩ := ih (col + 1) mat3 (by omega) hv3 hi3 hd3
    refine ⟨matF, ?_, hvF, hiF, fun x => (hs3 x).trans (hsF x)⟩
    simp only [elimAll, hstep]
    exact hall

/-- Extracting the last column succeeds on a valid grid and returns, for
each row, a simplified fraction with the same rational value. -/
theorem extractSol_spec (mat : Mat) (n : Nat) (hval : ValidMat mat n (n + 1)) :
    ∀ (k r : Nat), r + k ≤ n →
      ∃ sol : List Fraction, extractSol mat (n + 1) r k = .ok sol ∧ sol.length = k ∧
        ∀ i, i < k → val (sol.getD i ⟨0, 1⟩) = val (mat (r + i) n) := by
  intro k
  induction k with
  | zero =>
    intro r _
    exact ⟨[], rfl, rfl, fun i hi => absurd hi (by omega)⟩
  | succ k ih =>
    intro r hrk
    have hd : (mat r (n + 1 - 1)).den ≠ 0 := by
      rw [Nat.add_sub_cancel]
      exact hval r (by omega) n (by omega)
    obtain ⟨f, hf, _, _, hfval⟩ := simplify_spec (mat r (n + 1 - 1)) hd
    obtain ⟨sol, hsol, hlen, hvals⟩ := ih (r + 1) (by omega)
    refine ⟨f :: sol, ?_, by rw [List.length_cons, hlen], ?_⟩
    · simp only [extractSol, hf, hsol]
    · intro i hi
      cases i with
      | zero =>
        show val f = val (mat (r + 0) n)
        rw [Nat.add_sub_cancel] at hfval
        rw [hfval, Nat.add_zero]
      | succ i =>
        show val (sol.getD i ⟨0, 1⟩) = val (mat (r + (i + 1)) n)
        rw [hvals i (by omega), show r + 1 + i = r + (i + 1) by omega]

/-- C1: for every non-singular `n × (n+1)` integer matrix (`n ≥ 1`),
`solveLinearEquations` succeeds and returns a list of `n` fractions, in
original column order, that exactly satisfies every one of the `n`
equations of the system. -/
theorem c1_solve_exact_solution (matrix : List (List Int)) (n : Nat) (hn : 0 < n)
    (hlen : matrix.length = n)
    (hrows : ∀ row ∈ matrix, row.length = n + 1)
    (hdet : (Matrix.of fun i j : Fin n => ((entry matrix i j : Int) : ℚ)).det ≠ 0) :
    ∃ sol : List Fraction, solveLinearEquations matrix = .ok sol ∧ sol.length = n ∧
      ∀ r, r < n → ∑ c ∈ Finset.range n,
          ((entry matrix r c : Int) : ℚ) * val (sol.getD c ⟨0, 1⟩)
        = ((entry matrix r n : Int) : ℚ) := by
  obtain ⟨row0, rest, rfl⟩ : ∃ row0 rest, matrix = row0 :: rest := by
    cases matrix with
    | nil => exact absurd hlen (by simp; omega)
    | cons a l => exact ⟨a, l, rfl⟩
  have hm0 : row0.length = n + 1 := hrows row0 (List.mem_cons_self _ _)
  set mat0 : Mat := fun r c => makeFraction (((row0 :: rest).getD r []).getD c 0) with hmat0def
  have hmat0val : ∀ r c : Nat, val (mat0 r c) = ((entry (row0 :: rest) r c : Int) : ℚ) := by
    intro r c
    show val (makeFraction (entry (row0 :: rest) r c)) = _
    rw [makeFraction, val_mk, Int.cast_one, div_one]
  have hval0 : ValidMat mat0 n (n + 1) := by
    intro r _ c _
    show (1 : Int) ≠ 0
    norm_num
  have hid0 : IdCols mat0 n 0 := fun r _ c hc => absurd hc (by omega)
  have hdet0 : (leftB mat0 n).det ≠ 0 := by
    have heq : leftB mat0 n = Matrix.of fun i j : Fin n => ((entry (row0 :: rest) i j : Int) : ℚ) := by
      apply Matrix.ext
      intro i j
      show val (mat0 i j) = _
      rw [hmat0val]
      rfl
    rw [heq]
    exact hdet
  obtain ⟨matF, hall, hvF, hiF, hsF⟩ := elimAll_spec n n 0 mat0 (by omega) hval0 hid0 hdet0
  obtain ⟨sol, hext, hslen, hsvals⟩ := extractSol_spec matF n hvF n 0 (by omega)
  have hxF : SatM matF n (fun j => val (sol.getD j ⟨0, 1⟩)) := by
    intro r hr
    have hsum : ∑ j ∈ Finset.range n, val (matF r j) * val (sol.getD j ⟨0, 1⟩)
        = val (sol.getD r ⟨0, 1⟩) := by
      rw [Finset.sum_congr rfl (fun j hj => by
        rw [hiF r hr j (Finset.mem_range.mp hj), ite_mul, one_mul, zero_mul])]
      rw [Finset.sum_ite_eq, if_pos (Finset.mem_range.mpr hr)]
    rw [hsum, hsvals r hr, Nat.zero_add]
  have hx0 : SatM mat0 n (fun j => val (sol.getD j ⟨0, 1⟩)) := (hsF _).mpr hxF
  refine ⟨sol, ?_, hslen, ?_⟩
  · rw [solveLinearEquations]
    simp only [List.length_cons]
    have hlen2 : rest.length + 1 = n := by
      rw [← hlen]
      rfl
    rw [hlen2, hm0, ← hmat0def, hall]
    exact hext
  · intro r hr
    have hrow := hx0 r hr
    rw [Finset.sum_congr rfl (fun j hj => by rw [hmat0val r j]), hmat0val r n] at hrow
    exact hrow


theorem c1_witness :
    ∃ sol : List Fraction, solveLinearEquations [[2, 4]] = .ok sol ∧ sol.length = 1 ∧
      ∀ r, r < 1 → ∑ c ∈ Finset.range 1,
          ((entry [[2, 4]] r c : Int) : ℚ) * val (sol.getD c ⟨0, 1⟩)
        = ((entry [[2, 4]] r 1 : Int) : ℚ) :=
  c1_solve_exact_solution [[2, 4]] 1 (by norm_num) rfl (by decide)
    (by
      rw [Matrix.det_fin_one]
      show ((entry [[2, 4]] 0 0 : Int) : ℚ) ≠ 0
      norm_num [entry])

end Hashira
